import Mathlib

/-!
# Verification of the topological-stitching numeric core

Shallow embedding of the root-solving-and-matching routines of
`find_the_neutrino.py`, `mass_spectrum.py` and `quantized_spectrum.py`,
together with proofs settling the specification claims about them.

Python floats are modelled as real numbers.  `numpy` float operations that
produce NaN on out-of-domain input (`np.sqrt` of a negative number,
`np.arccos` outside `[-1, 1]`) are modelled twice: once with Mathlib's total
`Real.sqrt` / `Real.arccos` (the rendering used by the solver pipeline), and
once with an `Option`-valued rendering in which `none` stands for the NaN /
domain-error outcome, used to state domain-safety properties faithfully.

`scipy.optimize.fsolve` is an external library routine; it is modelled as an
abstract parameter of type `NumSolver`: a function taking the equation and
the initial guess and returning the proposed root (the code reads the first
component of the returned array, a single float).
-/

open Real

/-- Abstract interface of `scipy.optimize.fsolve` as the code uses it:
given the scalar equation and the initial guess, return the proposed root. -/
abbrev NumSolver : Type := (ℝ → ℝ) → ℝ → ℝ

/-- The stability equation of `find_the_neutrino.py` (the inner `equation`
of `solve_for_mass_proxy`): `if abs(m) > 1: return 100`, otherwise
`np.sqrt(1 - m**2) - m * (np.pi * N - np.arccos(-m))`. -/
noncomputable def ftnEquation (N : ℤ) (m : ℝ) : ℝ :=
  if 1 < |m| then 100
  else Real.sqrt (1 - m ^ 2) - m * (Real.pi * N - Real.arccos (-m))

/-- The stability equation of `mass_spectrum.py` (the `func` lambda inside
`solve_drift`): `np.sqrt(1 - m**2) - m * (np.pi * N - np.arccos(-m))`,
with no domain guard, rendered with Mathlib's total `sqrt` and `arccos`. -/
noncomputable def msEquation (N : ℕ) (m : ℝ) : ℝ :=
  Real.sqrt (1 - m ^ 2) - m * (Real.pi * N - Real.arccos (-m))

/-- The stability equation of `quantized_spectrum.py` (`equation(m, N)`),
identical to the `mass_spectrum.py` one and likewise unguarded; the
argument order follows the source. -/
noncomputable def qsEquation (m : ℝ) (N : ℕ) : ℝ :=
  Real.sqrt (1 - m ^ 2) - m * (Real.pi * N - Real.arccos (-m))

/-- `np.sqrt` with its domain tracked explicitly: `none` models the NaN
produced by a negative argument. -/
noncomputable def sqrtChecked (x : ℝ) : Option ℝ :=
  if x < 0 then none else some (Real.sqrt x)

/-- `np.arccos` with its domain tracked explicitly: `none` models the NaN
produced by an argument outside `[-1, 1]`. -/
noncomputable def arccosChecked (x : ℝ) : Option ℝ :=
  if x < -1 ∨ 1 < x then none else some (Real.arccos x)

/-- The `find_the_neutrino.py` stability equation with NaN tracked
explicitly: the `abs(m) > 1` branch returns the penalty `100` before any
partial function is applied; otherwise `sqrt` and `arccos` are applied with
their domains checked. -/
noncomputable def ftnEquationChecked (N : ℤ) (m : ℝ) : Option ℝ :=
  if 1 < |m| then some 100
  else
    match sqrtChecked (1 - m ^ 2), arccosChecked (-m) with
    | some s, some a => some (s - m * (Real.pi * N - a))
    | _, _ => none

/-- The `mass_spectrum.py` stability equation with NaN tracked explicitly:
no guard, so both `sqrt` and `arccos` are applied unconditionally. -/
noncomputable def msEquationChecked (N : ℕ) (m : ℝ) : Option ℝ :=
  match sqrtChecked (1 - m ^ 2), arccosChecked (-m) with
  | some s, some a => some (s - m * (Real.pi * N - a))
  | _, _ => none

/-- The `quantized_spectrum.py` stability equation with NaN tracked
explicitly: no guard, identical to the `mass_spectrum.py` rendering. -/
noncomputable def qsEquationChecked (m : ℝ) (N : ℕ) : Option ℝ :=
  match sqrtChecked (1 - m ^ 2), arccosChecked (-m) with
  | some s, some a => some (s - m * (Real.pi * N - a))
  | _, _ => none

/-- `solve_for_mass_proxy` of `find_the_neutrino.py`: seed the solver with
`guess = 1.0 / (np.pi * N)`, take the root it reports, and return
`N * np.sqrt(1 - m**2)` (the scaling hypothesis) — with no validation of
the reported root and no error path.  Caveat: at `N = 0` the source raises
`ZeroDivisionError` from the guess `1.0 / (np.pi * N)`, while real division
here totalizes `1 / 0` to `0`; this embedding is therefore faithful only
for `N ≠ 0`, and theorems about indices below the valid range are stated
for `N < 0`. -/
noncomputable def solve_for_mass_proxy (fsolve : NumSolver) (N : ℤ) : ℝ :=
  let m := fsolve (ftnEquation N) (1 / (Real.pi * N))
  N * Real.sqrt (1 - m ^ 2)

/-- `solve_drift` of `mass_spectrum.py`: seed the solver with
`guess = 1.0 / (np.pi * N)` and return the root it reports, unvalidated. -/
noncomputable def solve_drift (fsolve : NumSolver) (N : ℕ) : ℝ :=
  fsolve (msEquation N) (1 / (Real.pi * N))

/-- `get_mass_proxy` of `mass_spectrum.py`:
`m = solve_drift(N); v_rot = np.sqrt(1 - m**2); return N * v_rot`. -/
noncomputable def get_mass_proxy (fsolve : NumSolver) (N : ℕ) : ℝ :=
  N * Real.sqrt (1 - (solve_drift fsolve N) ^ 2)

/-- The sweep of `analyze_mass_spectrum` (`mass_spectrum.py`, steps 4–5),
which realizes the spec's `generate(N_min, N_max, N_anchor)`: for every `n`
in `np.arange(nmin, nmax + 1)` compute `get_mass_proxy(n)` and record the
ratio to the anchor's proxy.  The script hard-codes
`n_values = np.arange(2, 12000)` and anchor `N_e = 3`; the bounds and the
anchor index are parameters here, exactly as the spec's contract states,
while the loop body is the script's. -/
noncomputable def generate (fsolve : NumSolver) (nmin nmax na : ℕ) :
    List (ℕ × ℝ) :=
  let proxyAnchor := get_mass_proxy fsolve na
  (List.range' nmin (nmax + 1 - nmin)).map
    (fun n => (n, get_mass_proxy fsolve n / proxyAnchor))

/-- Left-to-right first-minimum selection, mirroring `np.argmin` on
`np.abs(mass_ratios - target)` (step 6 of `analyze_mass_spectrum`):
the current best entry is replaced only on a strictly smaller distance, so
the first occurrence of the minimal distance wins, as `np.argmin` does. -/
noncomputable def bestFrom (t : ℝ) : ℕ × ℝ → List (ℕ × ℝ) → ℕ × ℝ
  | acc, [] => acc
  | acc, x :: xs => bestFrom t (if |x.2 - t| < |acc.2 - t| then x else acc) xs

/-- The spec's `match(target_ratio)` as `analyze_mass_spectrum` computes it:
`idx = np.argmin(np.abs(mass_ratios - target)); (n_values[idx],
mass_ratios[idx])`.  `none` on an empty curve (where `np.argmin` errors). -/
noncomputable def matchTarget (curve : List (ℕ × ℝ)) (t : ℝ) :
    Option (ℕ × ℝ) :=
  match curve with
  | [] => none
  | e :: rest => some (bestFrom t e rest)

/-- The root computed per index in the loop of `plot_drift_spectrum`
(`quantized_spectrum.py`): `fsolve(equation, 1/(np.pi*N), args=(N,))[0]`. -/
noncomputable def qsRoot (fsolve : NumSolver) (N : ℕ) : ℝ :=
  fsolve (fun m => qsEquation m N) (1 / (Real.pi * N))

/-- `m_values` of `plot_drift_spectrum`: the roots for
`N_values = np.arange(1, 21)` (that is, `N = 1` to `20`). -/
noncomputable def mValues (fsolve : NumSolver) : List ℝ :=
  (List.range' 1 20).map (qsRoot fsolve)

/-- The spacing loop of `plot_drift_spectrum`:
`for i in range(len(m_values) - 1): spacings.append(m_values[i] -
m_values[i+1])`. -/
noncomputable def spacingsOf (l : List ℝ) : List ℝ :=
  (List.range (l.length - 1)).map (fun i => l.getD i 0 - l.getD (i + 1) 0)

/-- `spacings` of `plot_drift_spectrum` applied to its `m_values`. -/
noncomputable def spacings (fsolve : NumSolver) : List ℝ :=
  spacingsOf (mValues fsolve)

/-- A degenerate numeric solver that ignores its arguments and reports the
root `1` — an out-of-domain result (`|1| ≥ 1`), standing for a diverged
`fsolve` run. -/
noncomputable def unitSolver : NumSolver := fun _ _ => 1

/-- A degenerate numeric solver that ignores its arguments and reports the
root `0`, used to instantiate solver-independent statements. -/
noncomputable def zeroSolver : NumSolver := fun _ _ => 0

/-! ## Shared helper lemmas -/

theorem abs_two_real : |(2 : ℝ)| = 2 := abs_of_pos (by norm_num)

theorem one_lt_sq_of_one_lt_abs {m : ℝ} (h : 1 < |m|) : 1 < m ^ 2 := by
  nlinarith [sq_abs m, abs_nonneg m]

/-! ## C10 — totality of the guarded evaluator -/

/-- C10: the stability-equation evaluator of `find_the_neutrino.py` is total
over the reals: on every input the domain-checked rendering succeeds and
agrees with the total rendering, so `sqrt` is never applied to a negative
argument and no domain error or NaN can arise. -/
theorem ftnEquation_total (N : ℤ) (m : ℝ) :
    ftnEquationChecked N m = some (ftnEquation N m) := by
  by_cases h : 1 < |m|
  · unfold ftnEquationChecked ftnEquation
    rw [if_pos h, if_pos h]
  · have h1 : -1 ≤ m := (abs_le.mp (not_lt.mp h)).1
    have h2 : m ≤ 1 := (abs_le.mp (not_lt.mp h)).2
    have hs : sqrtChecked (1 - m ^ 2) = some (Real.sqrt (1 - m ^ 2)) := by
      unfold sqrtChecked
      rw [if_neg (by rw [not_lt]; nlinarith)]
    have ha : arccosChecked (-m) = some (Real.arccos (-m)) := by
      unfold arccosChecked
      rw [if_neg (by push_neg; constructor <;> linarith)]
    unfold ftnEquationChecked ftnEquation
    rw [if_neg h, if_neg h, hs, ha]

/-! ## C2 — the `|m| > 1 → 100` penalty branch -/

/-- C2 counterexample: the claim asserts the penalty for every evaluator
used inside solve, but the `mass_spectrum.py` evaluator has no guard: at
`N = 1`, `m = 2` (so `|m| > 1`) it hits a `sqrt` domain error (NaN, modelled
as `none`) instead of returning the penalty `+100`. -/
theorem msEquation_no_penalty_at_two :
    (1 : ℝ) < |(2 : ℝ)| ∧ msEquationChecked 1 2 ≠ some 100 := by
  constructor
  · rw [abs_two_real]; norm_num
  · have hs : sqrtChecked (1 - (2 : ℝ) ^ 2) = none := by
      unfold sqrtChecked; norm_num
    unfold msEquationChecked
    rw [hs]
    simp

/-- C2 (amended): only the `find_the_neutrino.py` evaluator implements the
edge-case policy, returning the penalty `100` for every `m` with
`|m| > 1`; the unguarded `mass_spectrum.py` and `quantized_spectrum.py`
evaluators instead hit a `sqrt` domain error (NaN) there. -/
theorem penalty_policy_per_evaluator :
    (∀ (N : ℤ) (m : ℝ), 1 < |m| → ftnEquation N m = 100) ∧
      (∀ (N : ℕ) (m : ℝ), 1 < |m| →
        msEquationChecked N m = none ∧ qsEquationChecked m N = none) := by
  constructor
  · intro N m h
    unfold ftnEquation
    simp [h]
  · intro N m h
    have h1 : 1 - m ^ 2 < 0 := by
      have := one_lt_sq_of_one_lt_abs h
      linarith
    have hs : sqrtChecked (1 - m ^ 2) = none := by
      unfold sqrtChecked; simp [h1]
    constructor
    · unfold msEquationChecked; rw [hs]
    · unfold qsEquationChecked; rw [hs]

/-- C2 witness: the amended statement evaluated at `N = 1`, `m = 2`. -/
theorem penalty_policy_per_evaluator_witness :
    ftnEquation 1 2 = 100 ∧ msEquationChecked 1 2 = none ∧
      qsEquationChecked 2 1 = none := by
  have habs : (1 : ℝ) < |(2 : ℝ)| := by rw [abs_two_real]; norm_num
  exact ⟨penalty_policy_per_evaluator.1 1 2 habs,
    (penalty_policy_per_evaluator.2 1 2 habs).1,
    (penalty_policy_per_evaluator.2 1 2 habs).2⟩

/-! ## C1 — no `SolverDivergence` validation -/

/-- C1 counterexample: with an underlying solver reporting the
out-of-domain root `m = 1` (`|m| ≥ 1`, a divergence condition per the
claim), both `solve_for_mass_proxy` and `get_mass_proxy` return the value
`0` normally; no `SolverDivergence` error path exists in the code. -/
theorem solve_returns_on_divergent_root :
    solve_for_mass_proxy unitSolver 5 = 0 ∧ get_mass_proxy unitSolver 5 = 0 := by
  constructor
  · unfold solve_for_mass_proxy unitSolver
    norm_num
  · unfold get_mass_proxy solve_drift unitSolver
    norm_num

/-- C1 (amended): `solve` performs no post-hoc validation of the solver's
output: whenever the underlying solver reports a root with `|m| = 1`
(on the boundary of the forbidden region `|m| ≥ 1`), `solve_for_mass_proxy`
accepts it and returns `N · sqrt(1 − m²) = 0` to the caller instead of
raising any error. -/
theorem solve_accepts_unvalidated_root (fsolve : NumSolver) (N : ℤ)
    (h : |fsolve (ftnEquation N) (1 / (Real.pi * N))| = 1) :
    solve_for_mass_proxy fsolve N = 0 := by
  have hm : (fsolve (ftnEquation N) (1 / (Real.pi * N))) ^ 2 = 1 := by
    rw [← sq_abs, h]; norm_num
  show (N : ℝ) * Real.sqrt (1 - (fsolve (ftnEquation N) (1 / (Real.pi * N))) ^ 2) = 0
  rw [hm]
  norm_num

/-- C1 witness: the amended statement at the constant solver reporting
root `1` and `N = 5`. -/
theorem solve_accepts_unvalidated_root_witness :
    |unitSolver (ftnEquation 5) (1 / (Real.pi * 5))| = 1 ∧
      solve_for_mass_proxy unitSolver 5 = 0 :=
  ⟨by unfold unitSolver; simp,
    solve_accepts_unvalidated_root unitSolver 5 (by unfold unitSolver; simp)⟩

/-! ## C5 — no `InvalidIndex` validation -/

/-- C5 counterexample: `solve_for_mass_proxy` at `N = -1 < 1` performs the
full computation and returns `-1` instead of rejecting the index, and the
sweep with bounds `N_min = 5 > N_max = 3` returns an empty curve instead of
raising `InvalidIndex`. -/
theorem no_rejection_below_one :
    solve_for_mass_proxy zeroSolver (-1) = -1 ∧
      generate zeroSolver 5 3 4 = [] := by
  constructor
  · unfold solve_for_mass_proxy zeroSolver
    norm_num
  · unfold generate
    norm_num

/-- C5 (amended): the code validates nothing: for every negative integer
`N` (the inputs below the valid range on which the source's guess
computation itself succeeds — at `N = 0` the source instead raises
`ZeroDivisionError` from `1.0 / (np.pi * N)`, still not `InvalidIndex`),
`solve_for_mass_proxy` just computes `N · sqrt(1 − m²)` from whatever the
solver returns, and for bounds with `N_max < N_min` the sweep silently
yields an empty curve; no `InvalidIndex` error is raised anywhere. -/
theorem no_index_validation :
    (∀ (fsolve : NumSolver) (N : ℤ), N < 0 →
      solve_for_mass_proxy fsolve N =
        (N : ℝ) * Real.sqrt (1 - (fsolve (ftnEquation N) (1 / (Real.pi * N))) ^ 2)) ∧
      (∀ (fsolve : NumSolver) (nmin nmax na : ℕ), nmax < nmin →
        generate fsolve nmin nmax na = []) := by
  constructor
  · intro fsolve N _
    rfl
  · intro fsolve nmin nmax na h
    have h0 : nmax + 1 - nmin = 0 := by omega
    unfold generate
    rw [h0]
    simp

/-- C5 witness: the amended statement at `N = -1` and at the invalid bounds
`N_min = 5, N_max = 3, N_anchor = 4`. -/
theorem no_index_validation_witness :
    ((-1 : ℤ) < 0 ∧
      solve_for_mass_proxy zeroSolver (-1) =
        ((-1 : ℤ) : ℝ) *
          Real.sqrt (1 - (zeroSolver (ftnEquation (-1)) (1 / (Real.pi * ((-1 : ℤ) : ℝ)))) ^ 2)) ∧
      (3 < 5 ∧ generate zeroSolver 5 3 4 = []) :=
  ⟨⟨by norm_num, no_index_validation.1 zeroSolver (-1) (by norm_num)⟩,
    ⟨by norm_num, no_index_validation.2 zeroSolver 5 3 4 (by norm_num)⟩⟩

/-! ## C8 — determinism of the sweep -/

/-- C8: the sweep is a pure function of its arguments — the embedding of
`analyze_mass_spectrum`'s loop reads no state other than its inputs, so two
calls of `generate` with identical arguments yield identical
`SpectrumCurve` contents. -/
theorem generate_deterministic (fsolve : NumSolver) (nmin nmax na : ℕ) :
    generate fsolve nmin nmax na = generate fsolve nmin nmax na := rfl

/-! ## C4 / C6 — structure of the generated curve -/

/-- Unfolding lemma for `generate` (the anchor proxy is computed once
before the loop in the source; the `let` is definitionally transparent). -/
theorem generate_eq (fsolve : NumSolver) (nmin nmax na : ℕ) :
    generate fsolve nmin nmax na =
      (List.range' nmin (nmax + 1 - nmin)).map
        (fun n => (n, get_mass_proxy fsolve n / get_mass_proxy fsolve na)) := rfl

/-- C4: for valid bounds `N_min ≤ N_anchor ≤ N_max`, the curve produced by
`generate` carries exactly the indices `N_min, …, N_max`: one entry for
every integer in the range, no duplicate indices, in strictly ascending
order of `N`. -/
theorem generate_indices (fsolve : NumSolver) (nmin nmax na : ℕ)
    (h1 : nmin ≤ na) (h2 : na ≤ nmax) :
    (generate fsolve nmin nmax na).map Prod.fst =
        List.range' nmin (nmax + 1 - nmin) ∧
      (∀ N : ℕ, (∃ r, (N, r) ∈ generate fsolve nmin nmax na) ↔
        nmin ≤ N ∧ N ≤ nmax) ∧
      ((generate fsolve nmin nmax na).map Prod.fst).Nodup ∧
      List.Pairwise (fun a b => a < b)
        ((generate fsolve nmin nmax na).map Prod.fst) := by
  have hmap : (generate fsolve nmin nmax na).map Prod.fst =
      List.range' nmin (nmax + 1 - nmin) := by
    rw [generate_eq, List.map_map]
    simp [Function.comp_def]
  refine ⟨hmap, ?_, ?_, ?_⟩
  · intro N
    constructor
    · rintro ⟨r, hr⟩
      have hmem : N ∈ (generate fsolve nmin nmax na).map Prod.fst :=
        List.mem_map_of_mem Prod.fst hr
      rw [hmap, List.mem_range'_1] at hmem
      omega
    · intro hN
      refine ⟨get_mass_proxy fsolve N / get_mass_proxy fsolve na, ?_⟩
      rw [generate_eq]
      exact List.mem_map.mpr ⟨N, by rw [List.mem_range'_1]; omega, rfl⟩
  · rw [hmap]
    exact List.nodup_range' nmin (nmax + 1 - nmin)
  · rw [hmap]
    exact List.pairwise_lt_range' nmin (nmax + 1 - nmin)

/-- C4 witness: the sweep `N_min = 2, N_max = 5, N_anchor = 3` under the
constant-zero solver. -/
theorem generate_indices_witness :
    2 ≤ 3 ∧ 3 ≤ 5 ∧
      ((generate zeroSolver 2 5 3).map Prod.fst = List.range' 2 (5 + 1 - 2) ∧
        (∀ N : ℕ, (∃ r, (N, r) ∈ generate zeroSolver 2 5 3) ↔
          2 ≤ N ∧ N ≤ 5) ∧
        ((generate zeroSolver 2 5 3).map Prod.fst).Nodup ∧
        List.Pairwise (fun a b => a < b)
          ((generate zeroSolver 2 5 3).map Prod.fst)) :=
  ⟨by norm_num, by norm_num,
    generate_indices zeroSolver 2 5 3 (by norm_num) (by norm_num)⟩

/-- C6: the anchor's own entry has ratio exactly `1`: under valid bounds,
and provided the anchor's proxy is nonzero (so the normalizing division is
nondegenerate), the curve contains the entry `(N_anchor, 1)` and every
entry carried at index `N_anchor` has ratio `1`. -/
theorem anchor_ratio_one (fsolve : NumSolver) (nmin nmax na : ℕ)
    (h1 : nmin ≤ na) (h2 : na ≤ nmax) (h0 : get_mass_proxy fsolve na ≠ 0) :
    (na, (1 : ℝ)) ∈ generate fsolve nmin nmax na ∧
      ∀ r : ℝ, (na, r) ∈ generate fsolve nmin nmax na → r = 1 := by
  constructor
  · rw [generate_eq]
    refine List.mem_map.mpr ⟨na, ?_, ?_⟩
    · rw [List.mem_range'_1]; omega
    · rw [div_self h0]
  · intro r hr
    rw [generate_eq] at hr
    rcases List.mem_map.mp hr with ⟨n, _, heq⟩
    have hn : n = na := congrArg Prod.fst heq
    have hv : get_mass_proxy fsolve n / get_mass_proxy fsolve na = r :=
      congrArg Prod.snd heq
    rw [hn, div_self h0] at hv
    exact hv.symm

/-- C6 witness: anchor `3` in the sweep `2..5` under the constant-zero
solver, whose anchor proxy is `3 ≠ 0`. -/
theorem anchor_ratio_one_witness :
    2 ≤ 3 ∧ 3 ≤ 5 ∧ get_mass_proxy zeroSolver 3 ≠ 0 ∧
      ((3, (1 : ℝ)) ∈ generate zeroSolver 2 5 3 ∧
        ∀ r : ℝ, (3, r) ∈ generate zeroSolver 2 5 3 → r = 1) := by
  have h0 : get_mass_proxy zeroSolver 3 ≠ 0 := by
    unfold get_mass_proxy solve_drift zeroSolver
    norm_num
  exact ⟨by norm_num, by norm_num, h0,
    anchor_ratio_one zeroSolver 2 5 3 (by norm_num) (by norm_num) h0⟩

/-! ## C9 — spacing of consecutive roots -/

theorem mValues_length (fsolve : NumSolver) : (mValues fsolve).length = 20 := by
  simp [mValues]

theorem mValues_getD (fsolve : NumSolver) (i : ℕ) (hi : i < 20) :
    (mValues fsolve).getD i 0 = qsRoot fsolve (1 + i) := by
  unfold mValues
  rw [List.getD_eq_getElem _ _ (by simpa using hi), List.getElem_map,
    List.getElem_range'_1]

/-- C9: for every index `N` with both `N` and `N + 1` present in the curve
(`1 ≤ N ≤ 19` for the script's `N = 1..20` sweep), the `N`-th spacing is the
difference `m(N) − m(N + 1)` of the two consecutive roots, and the spacing
list has exactly `19` entries, so spacing is defined for no other index. -/
theorem spacing_consecutive_roots (fsolve : NumSolver) (N : ℕ)
    (h1 : 1 ≤ N) (h2 : N ≤ 19) :
    (spacings fsolve).getD (N - 1) 0 =
        qsRoot fsolve N - qsRoot fsolve (N + 1) ∧
      (spacings fsolve).length = 19 := by
  have hlenM : (mValues fsolve).length = 20 := mValues_length fsolve
  constructor
  · unfold spacings spacingsOf
    rw [List.getD_eq_getElem _ _ (by simp [hlenM]; omega), List.getElem_map,
      List.getElem_range]
    rw [mValues_getD fsolve (N - 1) (by omega)]
    rw [show N - 1 + 1 = N from by omega]
    rw [mValues_getD fsolve N (by omega)]
    rw [show 1 + (N - 1) = N from by omega, show 1 + N = N + 1 from by omega]
  · unfold spacings spacingsOf
    simp [hlenM]

/-- C9 witness: the spacing at `N = 1` under the constant-zero solver. -/
theorem spacing_consecutive_roots_witness :
    (1 : ℕ) ≤ 1 ∧ (1 : ℕ) ≤ 19 ∧
      ((spacings zeroSolver).getD (1 - 1) 0 =
          qsRoot zeroSolver 1 - qsRoot zeroSolver 2 ∧
        (spacings zeroSolver).length = 19) :=
  ⟨le_refl 1, by norm_num,
    spacing_consecutive_roots zeroSolver 1 (le_refl 1) (by norm_num)⟩

/-! ## C3 — the nearest-match scan -/

/-- The first-minimum fold returns either the seed or a scanned entry, and
its distance to the target is minimal among seed and scanned entries. -/
theorem bestFrom_spec (t : ℝ) (acc : ℕ × ℝ) (xs : List (ℕ × ℝ)) :
    (bestFrom t acc xs = acc ∨ bestFrom t acc xs ∈ xs) ∧
      |(bestFrom t acc xs).2 - t| ≤ |acc.2 - t| ∧
      ∀ e ∈ xs, |(bestFrom t acc xs).2 - t| ≤ |e.2 - t| := by
  induction xs generalizing acc with
  | nil => simp [bestFrom]
  | cons x xs ih =>
    by_cases hc : |x.2 - t| < |acc.2 - t|
    · have hb := ih x
      simp only [bestFrom, if_pos hc]
      refine ⟨?_, ?_, ?_⟩
      · rcases hb.1 with h | h
        · exact Or.inr (by rw [h]; exact List.mem_cons_self x xs)
        · exact Or.inr (List.mem_cons_of_mem x h)
      · exact le_trans hb.2.1 (le_of_lt hc)
      · intro e he
        rcases List.mem_cons.mp he with heq | he'
        · rw [heq]; exact hb.2.1
        · exact hb.2.2 e he'
    · have hb := ih acc
      simp only [bestFrom, if_neg hc]
      refine ⟨?_, hb.2.1, ?_⟩
      · rcases hb.1 with h | h
        · exact Or.inl h
        · exact Or.inr (List.mem_cons_of_mem x h)
      · intro e he
        rcases List.mem_cons.mp he with heq | he'
        · rw [heq]; exact le_trans hb.2.1 (not_lt.mp hc)
        · exact hb.2.2 e he'

/-- Tie-breaking: on a list strictly sorted by index, the first-minimum
fold returns the entry with the smallest index among those attaining the
minimal distance (replacement happens only on strictly smaller distance,
exactly as `np.argmin` keeps the first occurrence). -/
theorem bestFrom_first (t : ℝ) (acc : ℕ × ℝ) (xs : List (ℕ × ℝ))
    (hs : List.Pairwise (fun a b => a.1 < b.1) (acc :: xs)) :
    ∀ e, (e = acc ∨ e ∈ xs) → |e.2 - t| ≤ |(bestFrom t acc xs).2 - t| →
      (bestFrom t acc xs).1 ≤ e.1 := by
  induction xs generalizing acc with
  | nil =>
    intro e he _
    rcases he with rfl | h
    · simp [bestFrom]
    · cases h
  | cons x xs ih =>
    intro e he hle
    rcases List.pairwise_cons.mp hs with ⟨hrel, htail⟩
    by_cases hc : |x.2 - t| < |acc.2 - t|
    · simp only [bestFrom, if_pos hc] at hle ⊢
      rcases he with rfl | hmem
      · exfalso
        have h1 : |(bestFrom t x xs).2 - t| ≤ |x.2 - t| :=
          (bestFrom_spec t x xs).2.1
        exact absurd hle (not_le.mpr (lt_of_le_of_lt h1 hc))
      · rcases List.mem_cons.mp hmem with heq | hmem'
        · exact ih x htail e (Or.inl heq) hle
        · exact ih x htail e (Or.inr hmem') hle
    · have hs' : List.Pairwise (fun a b => a.1 < b.1) (acc :: xs) :=
        List.pairwise_cons.mpr
          ⟨fun b hb => hrel b (List.mem_cons_of_mem x hb), htail.of_cons⟩
      simp only [bestFrom, if_neg hc] at hle ⊢
      rcases he with heq2 | hmem
      · exact ih acc hs' e (Or.inl heq2) hle
      · rcases List.mem_cons.mp hmem with heq | hmem'
        · have hacc_le : |acc.2 - t| ≤ |(bestFrom t acc xs).2 - t| := by
            refine le_trans (not_lt.mp hc) ?_
            rw [← heq]
            exact hle
          have h1 : (bestFrom t acc xs).1 ≤ acc.1 :=
            ih acc hs' acc (Or.inl rfl) hacc_le
          have h2 : acc.1 < e.1 := hrel e hmem
          omega
        · exact ih acc hs' e (Or.inr hmem') hle

/-- C3: on every non-empty curve, `match` returns an entry of the curve
that globally minimizes `|ratio − target|`, and — the curve being strictly
ascending in `N` — among the entries attaining that minimum it returns the
one with the smallest `N`. -/
theorem match_is_global_min (curve : List (ℕ × ℝ)) (t : ℝ)
    (hne : curve ≠ [])
    (hsorted : List.Pairwise (fun a b => a.1 < b.1) curve) :
    ∃ b, matchTarget curve t = some b ∧ b ∈ curve ∧
      (∀ e ∈ curve, |b.2 - t| ≤ |e.2 - t|) ∧
      ∀ e ∈ curve, |e.2 - t| ≤ |b.2 - t| → b.1 ≤ e.1 := by
  obtain ⟨a, rest, rfl⟩ : ∃ a rest, curve = a :: rest := by
    cases curve with
    | nil => exact absurd rfl hne
    | cons a rest => exact ⟨a, rest, rfl⟩
  refine ⟨bestFrom t a rest, rfl, ?_, ?_, ?_⟩
  · rcases (bestFrom_spec t a rest).1 with h | h
    · rw [h]; exact List.mem_cons_self a rest
    · exact List.mem_cons_of_mem a h
  · intro e he
    rcases List.mem_cons.mp he with heq | he'
    · rw [heq]; exact (bestFrom_spec t a rest).2.1
    · exact (bestFrom_spec t a rest).2.2 e he'
  · intro e he hle
    rcases List.mem_cons.mp he with heq | he'
    · exact bestFrom_first t a rest hsorted e (Or.inl heq) hle
    · exact bestFrom_first t a rest hsorted e (Or.inr he') hle

/-- C3 witness: the spec's concrete scenario — curve ratios
`{N=2: 0.8, N=3: 1.0, N=5: 3.2}` with target `3.15`. -/
theorem match_is_global_min_witness :
    ([((2 : ℕ), (0.8 : ℝ)), (3, 1.0), (5, 3.2)] ≠ ([] : List (ℕ × ℝ))) ∧
      List.Pairwise (fun a b => a.1 < b.1)
        [((2 : ℕ), (0.8 : ℝ)), (3, 1.0), (5, 3.2)] ∧
      ∃ b, matchTarget [((2 : ℕ), (0.8 : ℝ)), (3, 1.0), (5, 3.2)] 3.15 = some b ∧
        b ∈ [((2 : ℕ), (0.8 : ℝ)), (3, 1.0), (5, 3.2)] ∧
        (∀ e ∈ [((2 : ℕ), (0.8 : ℝ)), (3, 1.0), (5, 3.2)],
          |b.2 - 3.15| ≤ |e.2 - 3.15|) ∧
        ∀ e ∈ [((2 : ℕ), (0.8 : ℝ)), (3, 1.0), (5, 3.2)],
          |e.2 - 3.15| ≤ |b.2 - 3.15| → b.1 ≤ e.1 :=
  ⟨by simp, by norm_num [List.pairwise_cons],
    match_is_global_min _ 3.15 (by simp) (by norm_num [List.pairwise_cons])⟩

/-! ## C7 — strict monotonicity of the drift root in `N`

`scipy.optimize.fsolve` is external code; following the spec, the root the
solver returns for index `N` is modelled as the exact root of the stability
equation: the spec defines `DriftRoot (m)` as "a real number … satisfying
the stability equation for a given `N`" and fixes the retained root as the
one near the small-`m` guess.  For every `N ≥ 1` the equation has exactly
one root in `[0, 1]` (proved below), so that root is `driftRoot N`. -/

open Classical in
/-- Modelled from the spec: the value returned by `RootSolver.solve(N)` —
the root of the `mass_spectrum.py` stability equation in `[0, 1]`
(`fsolve` itself is external library code; the spec's DriftRoot is the
number satisfying the stability equation for the given `N`). -/
noncomputable def driftRoot (N : ℕ) : ℝ :=
  if h : ∃ m, m ∈ Set.Icc (0 : ℝ) 1 ∧ msEquation N m = 0 then h.choose else 0

theorem msEquation_continuous (N : ℕ) : Continuous (msEquation N) := by
  unfold msEquation
  have h1 : Continuous fun m : ℝ => 1 - m ^ 2 := by continuity
  have h2 : Continuous fun m : ℝ => Real.sqrt (1 - m ^ 2) :=
    Real.continuous_sqrt.comp h1
  have h3 : Continuous fun m : ℝ => Real.arccos (-m) :=
    Real.continuous_arccos.comp continuous_neg
  have h4 : Continuous fun m : ℝ => m * (Real.pi * N - Real.arccos (-m)) :=
    continuous_id.mul (continuous_const.sub h3)
  exact h2.sub h4

theorem msEquation_zero (N : ℕ) : msEquation N 0 = 1 := by
  unfold msEquation
  norm_num

theorem msEquation_one (N : ℕ) : msEquation N 1 = Real.pi - Real.pi * N := by
  unfold msEquation
  rw [Real.arccos_neg_one]
  norm_num [Real.sqrt_zero]

theorem msEquation_hasDerivAt (N : ℕ) {m : ℝ} (hm1 : -1 < m) (hm2 : m < 1) :
    HasDerivAt (msEquation N) (Real.arccos (-m) - Real.pi * N) m := by
  have hsqpos : (0 : ℝ) < 1 - m ^ 2 := by nlinarith
  have hsq : (1 : ℝ) - m ^ 2 ≠ 0 := ne_of_gt hsqpos
  have hs : Real.sqrt (1 - m ^ 2) ≠ 0 := Real.sqrt_ne_zero'.mpr hsqpos
  have h1 : HasDerivAt (fun x : ℝ => 1 - x ^ 2) (-(2 * m)) m := by
    simpa using (hasDerivAt_pow 2 m).const_sub 1
  have h2 : HasDerivAt (fun x : ℝ => Real.sqrt (1 - x ^ 2))
      (1 / (2 * Real.sqrt (1 - m ^ 2)) * -(2 * m)) m := by
    simpa [Function.comp] using (Real.hasDerivAt_sqrt hsq).comp m h1
  have h3 : HasDerivAt (fun x : ℝ => Real.arccos (-x))
      (1 / Real.sqrt (1 - m ^ 2)) m := by
    have hne1 : -m ≠ -1 := by
      intro h
      have : m = 1 := by linarith
      linarith
    have hne2 : -m ≠ 1 := by
      intro h
      have : m = -1 := by linarith
      linarith
    have ha := (Real.hasDerivAt_arccos hne1 hne2).comp m (hasDerivAt_neg m)
    simpa [Function.comp, neg_sq] using ha
  have h4 : HasDerivAt (fun x : ℝ => x * (Real.pi * N - Real.arccos (-x)))
      (1 * (Real.pi * N - Real.arccos (-m)) +
        m * -(1 / Real.sqrt (1 - m ^ 2))) m :=
    (hasDerivAt_id' (x := m)).mul (h3.const_sub (Real.pi * N))
  have h5 := h2.sub h4
  have hmsEq : msEquation N = fun x : ℝ =>
      Real.sqrt (1 - x ^ 2) - x * (Real.pi * N - Real.arccos (-x)) := rfl
  rw [hmsEq]
  convert h5 using 1
  field_simp
  ring

theorem msEquation_strictAntiOn (N : ℕ) (hN : 1 ≤ N) :
    StrictAntiOn (msEquation N) (Set.Icc (0 : ℝ) 1) := by
  apply strictAntiOn_of_deriv_neg (convex_Icc 0 1)
    (msEquation_continuous N).continuousOn
  intro x hx
  rw [interior_Icc] at hx
  have hd := msEquation_hasDerivAt N (by linarith [hx.1]) hx.2
  rw [hd.deriv]
  have h1 : Real.arccos (-x) < Real.pi := by
    refine lt_of_le_of_ne (Real.arccos_le_pi (-x)) (fun hEq => ?_)
    have : -x ≤ -1 := Real.arccos_eq_pi.mp hEq
    linarith [hx.2]
  have hcast : (1 : ℝ) ≤ N := Nat.one_le_cast.mpr hN
  nlinarith [Real.pi_pos]

theorem driftRoot_exists (N : ℕ) (hN : 1 ≤ N) :
    ∃ m, m ∈ Set.Icc (0 : ℝ) 1 ∧ msEquation N m = 0 := by
  have hmem : (0 : ℝ) ∈ Set.Icc (msEquation N 1) (msEquation N 0) := by
    rw [msEquation_zero, msEquation_one]
    have hcast : (1 : ℝ) ≤ N := Nat.one_le_cast.mpr hN
    constructor
    · nlinarith [Real.pi_pos]
    · norm_num
  obtain ⟨m, hm, hm0⟩ := intermediate_value_Icc' zero_le_one
    (msEquation_continuous N).continuousOn hmem
  exact ⟨m, hm, hm0⟩

theorem driftRoot_isRoot (N : ℕ) (hN : 1 ≤ N) :
    driftRoot N ∈ Set.Icc (0 : ℝ) 1 ∧ msEquation N (driftRoot N) = 0 := by
  have hex := driftRoot_exists N hN
  unfold driftRoot
  rw [dif_pos hex]
  exact hex.choose_spec

theorem driftRoot_pos (N : ℕ) (hN : 1 ≤ N) : 0 < driftRoot N := by
  obtain ⟨hmem, heq⟩ := driftRoot_isRoot N hN
  rcases eq_or_lt_of_le hmem.1 with h0 | h0
  · exfalso
    rw [← h0, msEquation_zero] at heq
    norm_num at heq
  · exact h0

/-- C7: the drift root strictly decreases as the harmonic index grows: for
all `N2 > N1 ≥ 1`, the root of the stability equation retained for `N2` is
strictly below the one retained for `N1`, so a generated spectrum of roots
is strictly descending. -/
theorem driftRoot_strict_anti (N1 N2 : ℕ) (h1 : 1 ≤ N1) (hlt : N1 < N2) :
    driftRoot N2 < driftRoot N1 := by
  have h2 : 1 ≤ N2 := le_trans h1 (le_of_lt hlt)
  obtain ⟨hr1mem, hr1eq⟩ := driftRoot_isRoot N1 h1
  obtain ⟨hr2mem, hr2eq⟩ := driftRoot_isRoot N2 h2
  have hpos := driftRoot_pos N1 h1
  have hdiff : msEquation N2 (driftRoot N1) =
      msEquation N1 (driftRoot N1) -
        Real.pi * ((N2 : ℝ) - N1) * driftRoot N1 := by
    unfold msEquation
    ring
  have hneg : msEquation N2 (driftRoot N1) < 0 := by
    rw [hdiff, hr1eq]
    have hc : (N1 : ℝ) < N2 := Nat.cast_lt.mpr hlt
    have hprod : 0 < Real.pi * ((N2 : ℝ) - N1) * driftRoot N1 :=
      mul_pos (mul_pos Real.pi_pos (sub_pos.mpr hc)) hpos
    linarith
  by_contra hle
  push_neg at hle
  rcases eq_or_lt_of_le hle with heq | hlt2
  · rw [heq, hr2eq] at hneg
    exact lt_irrefl 0 hneg
  · have hanti := msEquation_strictAntiOn N2 h2 hr1mem hr2mem hlt2
    rw [hr2eq] at hanti
    linarith

/-- C7 witness: the roots for the first two harmonic indices. -/
theorem driftRoot_strict_anti_witness :
    1 ≤ 1 ∧ 1 < 2 ∧ driftRoot 2 < driftRoot 1 :=
  ⟨le_refl 1, by norm_num, driftRoot_strict_anti 1 2 (le_refl 1) (by norm_num)⟩
